import Mathlib

/- Verification development for DoomRunner's selection/reload utilities
   (Sources/Utils/WidgetUtils.hpp), argument tokenizer
   (Sources/Utils/MiscUtils.cpp, splitCommandLineArguments) and run-command
   builder (Sources/Utils/OSUtils.cpp, getRunCommand / getExecutableTraits).
   Each definition is a shallow embedding of the corresponding C++ function;
   machine integers appear only as Qt container indices, which are
   non-negative and in range in every modelled code path, so they are
   embedded as Nat. -/

namespace DoomRunner

/-- The double-quote character, written by code point to keep sources plain. -/
def quoteChar : Char := Char.ofNat 34

/-- The backslash character, written by code point to keep sources plain. -/
def backslashChar : Char := Char.ofNat 92

/-- One parsed command-line argument: its text and whether it came from a
    double-quoted group (struct `Argument` of MiscUtils.hpp). -/
structure Argument where
  text : String
  wasQuoted : Bool
deriving DecidableEq

/-- The scanning loop of `splitCommandLineArguments` (MiscUtils.cpp:186-227):
    one pass over the remaining characters, carrying `currentArg`, `escaped`
    and `inQuotes` exactly as the C++ loop does.  Returns the arguments
    emitted inside the loop together with the final `currentArg` and the
    final `inQuotes` flag (used by the epilogue at lines 229-232). -/
def splitArgsLoop : List Char → List Char → Bool → Bool → List Argument × List Char × Bool
  | [], currentArg, _, inQuotes => ([], currentArg, inQuotes)
  | c :: rest, currentArg, true, inQuotes =>
      splitArgsLoop rest (currentArg ++ [c]) false inQuotes
  | c :: rest, currentArg, false, true =>
      if c = backslashChar then
        splitArgsLoop rest currentArg true true
      else if c = quoteChar then
        let r := splitArgsLoop rest [] false false
        (⟨String.mk currentArg, true⟩ :: r.1, r.2)
      else
        splitArgsLoop rest (currentArg ++ [c]) false true
  | c :: rest, currentArg, false, false =>
      if c = backslashChar then
        splitArgsLoop rest currentArg true false
      else if c = quoteChar then
        let r := splitArgsLoop rest [] false true
        ((if currentArg.isEmpty then r.1 else ⟨String.mk currentArg, false⟩ :: r.1), r.2)
      else if c = ' ' then
        let r := splitArgsLoop rest [] false false
        ((if currentArg.isEmpty then r.1 else ⟨String.mk currentArg, false⟩ :: r.1), r.2)
      else
        splitArgsLoop rest (currentArg ++ [c]) false false

/-- `splitCommandLineArguments` (MiscUtils.cpp:178-235): run the scanning
    loop, then flush the pending `currentArg` if non-empty, flagging it
    quoted when the scan ended inside quotes and the last input character
    is not a double quote (line 231). -/
def splitCommandLineArguments (argsStr : String) : List Argument :=
  let r := splitArgsLoop argsStr.data [] false false
  r.1 ++ (if r.2.1.isEmpty then []
          else [⟨String.mk r.2.1, r.2.2 && !(argsStr.data.getLastD ' ' = quoteChar : Bool)⟩])

/-- Whether the scan of the whole input ends with quote mode still open
    (the value of `inQuotes` after the loop of MiscUtils.cpp:186-227). -/
def endsInQuotes (argsStr : String) : Bool :=
  (splitArgsLoop argsStr.data [] false false).2.2

/-! ### List mutation operations (WidgetUtils.hpp) -/

/-- The deletion loop of `deleteSelectedItems` (WidgetUtils.hpp:215-220):
    remove at each selected index minus the number of already performed
    deletions. -/
def deleteLoop {α : Type} : List α → List Nat → Nat → List α
  | l, [], _ => l
  | l, i :: rest, deletedCnt => deleteLoop (l.eraseIdx (i - deletedCnt)) rest (deletedCnt + 1)

/-- `selectedIndexesAsc[0]` of WidgetUtils.hpp:208: the smallest selected
    index after the ascending sort of line 206. -/
def firstDeletedIdx (selectedIndexes : List Nat) : Nat :=
  (List.insertionSort (· ≤ ·) selectedIndexes).headD 0

/-- `deleteSelectedItems` (WidgetUtils.hpp:190-235) on the pure part of the
    view state: the model's item list, the selected indexes in the order the
    user clicked them, and the current item.  Returns the new item list and
    the item selected-and-made-current afterwards (lines 225-232); with an
    empty selection the function only pops a warning and changes nothing. -/
def deleteSelectedItems {α : Type} (items : List α) (selectedIndexes : List Nat)
    (current : Option Nat) : List α × Option Nat :=
  if selectedIndexes.isEmpty then (items, current)
  else
    let newItems := deleteLoop items (List.insertionSort (· ≤ ·) selectedIndexes) 0
    let newCurrent :=
      if firstDeletedIdx selectedIndexes < newItems.length then
        some (firstDeletedIdx selectedIndexes)
      else if newItems.isEmpty then none
      else some (firstDeletedIdx selectedIndexes - 1)
    (newItems, newCurrent)

/-- Reference reformulation used only in theorem statements: keep the
    elements of `l` whose position does not satisfy `p` (so the result is
    `l` with all elements at positions satisfying `p` removed). -/
def dropIdxP {α : Type} : List α → (Nat → Bool) → List α
  | [], _ => []
  | a :: l, p => (if p 0 then [] else [a]) ++ dropIdxP l (fun j => p (j + 1))

/-- `QList::move(from, to)` as used by the move-up/move-down actions:
    take the element at `src` out and re-insert it at position `dst`. -/
def listMove {α : Type} [Inhabited α] (l : List α) (src dst : Nat) : List α :=
  ((l.eraseIdx src).take dst) ++ [l.getD src default] ++ ((l.eraseIdx src).drop dst)

/-- Swap the adjacent elements at positions `i` and `i+1` (out-of-range
    positions leave the list unchanged); reformulation target for
    `listMove` with adjacent indices. -/
def swapAdj {α : Type} : List α → Nat → List α
  | a :: b :: t, 0 => b :: a :: t
  | a :: t, i + 1 => a :: swapAdj t i
  | l, _ => l

/-- The pure part of a single-selection list view: the model's items (each
    represented by its persistent ID), the current item and the selected
    item. -/
structure ListViewState where
  items : List String
  current : Option Nat
  selected : Option Nat
deriving DecidableEq

/-- `moveUpSelectedItem` (WidgetUtils.hpp:272-309): no-op when nothing is
    selected (warning only) or when the selected item is first; otherwise
    move the item one position up, select it at its new position and
    re-track the current item (lines 299-306: one up if it was not first,
    else clamp to 0; an unset current item, index -1 in C++, also lands in
    the else branch and becomes 0). -/
def moveUpSelectedItem (s : ListViewState) : ListViewState :=
  match s.selected with
  | none => s
  | some selectedIdx =>
    if selectedIdx = 0 then s
    else
      { items := listMove s.items selectedIdx (selectedIdx - 1)
        selected := some (selectedIdx - 1)
        current := some (match s.current with
          | some c => c - 1
          | none => 0) }

/-- `moveDownSelectedItem` (WidgetUtils.hpp:313-351): no-op when nothing is
    selected or when the selected item is last; otherwise move the item one
    position down, select it at its new position and re-track the current
    item (lines 341-348: one down if it was not last, else clamp to the
    last index; an unset current item, -1 in C++, satisfies
    `currentIdx < size-1` and becomes 0). -/
def moveDownSelectedItem (s : ListViewState) : ListViewState :=
  match s.selected with
  | none => s
  | some selectedIdx =>
    if selectedIdx = s.items.length - 1 then s
    else
      { items := listMove s.items selectedIdx (selectedIdx + 1)
        selected := some (selectedIdx + 1)
        current := some (match s.current with
          | some c => if c < s.items.length - 1 then c + 1 else s.items.length - 1
          | none => 0) }

/-! ### Directory reload (WidgetUtils.hpp:563-605) -/

/-- The pure part of a multi-selection list view used by
    `updateListFromDir`: the current item and the selected indexes in
    click order.  Items themselves are carried separately as a list of
    their persistent IDs (`Item::getID()`, derived from the file path). -/
structure ViewState where
  current : Option Nat
  selected : List Nat
deriving DecidableEq

/-- `getCurrentItemID` (WidgetUtils.hpp:467-475): the persistent ID of the
    current item, or an empty string when there is none. -/
def getCurrentItemID (items : List String) (vs : ViewState) : String :=
  match vs.current with
  | some i => items.getD i ""
  | none => ""

/-- `getSelectedItemIDs` (WidgetUtils.hpp:521-528): the persistent IDs of
    the selected items. -/
def getSelectedItemIDs (items : List String) (vs : ViewState) : List String :=
  vs.selected.map (fun i => items.getD i "")

/-- Modelled from the spec: `findSuch` of LangUtils.hpp is not under src/;
    per its uses in WidgetUtils.hpp it returns the index of the first item
    satisfying the predicate, here specialised to "has the given persistent
    ID", or a negative value (here `none`) when there is no such item. -/
def findSuch (items : List String) (itemID : String) : Option Nat :=
  match items with
  | [] => none
  | a :: rest => if a = itemID then some 0 else (findSuch rest itemID).map (fun i => i + 1)

/-- `setCurrentItemByID` (WidgetUtils.hpp:489-502): the current item that
    results from attempting to restore `itemID` into a list whose items
    have the given IDs, starting from an unset current item — restore only
    when the ID is non-empty and present. -/
def setCurrentItemByID (items : List String) (itemID : String) : Option Nat :=
  if itemID = "" then none else findSuch items itemID

/-- `selectItemsByIDs` (WidgetUtils.hpp:531-540): select, in order, the
    first index carrying each given ID, silently skipping absent IDs. -/
def selectItemsByIDs (items : List String) (itemIDs : List String) : List Nat :=
  itemIDs.filterMap (fun itemID => findSuch items itemID)

/-- `updateListFromDir` (WidgetUtils.hpp:563-605) on the pure state: note
    down the current item's ID and the selected IDs, clear the model,
    repopulate it from the directory scan (`scan` is the ID list produced
    by `traverseDirectory` filtered by `isDesiredFile`, in scan order),
    then restore selection and current item by ID. -/
def updateListFromDir (scan : List String) (items : List String) (vs : ViewState) :
    List String × ViewState :=
  (scan,
   { current := setCurrentItemByID scan (getCurrentItemID items vs)
     selected := selectItemsByIDs scan (getSelectedItemIDs items vs) })

/-! ### Run-command builder (OSUtils.cpp) -/

/-- `enum class Sandbox` of OSUtils.hpp. -/
inductive Sandbox where
  | None
  | Snap
  | Flatpak
deriving DecidableEq

/-- `struct ExecutableTraits` of OSUtils.hpp, as filled by
    `getExecutableTraits`. -/
structure ExecutableTraits where
  executableBaseName : String
  sandboxEnv : Sandbox
  sandboxAppName : String
deriving DecidableEq

/-- `struct ShellCommand` of OSUtils.hpp: the executable token, the ordered
    argument tokens, and the extra filesystem permissions granted. -/
structure ShellCommand where
  executable : String
  arguments : List String
  extraPermissions : List String
deriving DecidableEq

/-- The ambient OS facilities `getRunCommand` consults: the platform flag
    behind `isWindows()`, the working directory used by absolute-path
    resolution, and `QStandardPaths::findExecutable` (external Qt
    collaborators, passed as parameters). -/
structure OSEnv where
  isWindows : Bool
  cwd : String
  findExecutable : String → String

/-- The path settings of `PathContext` (FileSystemUtils.hpp): the base
    directory and the use-absolute-paths toggle. -/
structure PathContext where
  baseDir : String
  useAbsolutePaths : Bool

/-- Whether `pre` is a prefix of `s`, character by character. -/
def isPrefixL : List Char → List Char → Bool
  | [], _ => true
  | _ :: _, [] => false
  | a :: as, b :: bs => a = b && isPrefixL as bs

/-- Whether the string `pre` starts the string `s`. -/
def strStartsWith (s pre : String) : Bool := isPrefixL pre.data s.data

/-- Whether the string contains the given character. -/
def strContainsChar (s : String) (c : Char) : Bool := s.data.any (fun x => x = c)

/-- Modelled from the spec: `getFileNameFromPath` of FileSystemUtils.hpp is
    not under src/; it yields the file name, i.e. the path component after
    the last separator. -/
def getFileNameFromPath (path : String) : String :=
  String.mk ((path.data.reverse.takeWhile (fun c => !(c = '/'))).reverse)

/-- Modelled from the spec: `getFileBasenameFromPath` of FileSystemUtils.hpp
    is not under src/; it yields the executable's base name — the file name
    stripped of its extension. -/
def getFileBasenameFromPath (path : String) : String :=
  String.mk ((getFileNameFromPath path).data.takeWhile (fun c => !(c = '.')))

/-- Modelled from the spec: `getAbsolutePath` of FileSystemUtils.hpp is not
    under src/; an already absolute path is kept, a relative one is resolved
    against the working directory. -/
def getAbsolutePath (env : OSEnv) (path : String) : String :=
  if strStartsWith path "/" then path else env.cwd ++ "/" ++ path

/-- Modelled from the spec: `PathContext::rebasePath` is not under src/; it
    converts the path to absolute or to base-directory-relative form
    according to the use-absolute-paths toggle. -/
def rebasePath (base : PathContext) (path : String) : String :=
  if base.useAbsolutePaths then
    (if strStartsWith path "/" then path else base.baseDir ++ "/" ++ path)
  else
    (if strStartsWith path (base.baseDir ++ "/") then
       String.mk (path.data.drop (base.baseDir ++ "/").data.length)
     else path)

/-- Modelled from the spec: `PathContext::maybeQuoted` is not under src/; it
    wraps the path in double quotes when it contains a space. -/
def maybeQuoted (_base : PathContext) (path : String) : String :=
  if strContainsChar path ' ' then
    String.mk [quoteChar] ++ path ++ String.mk [quoteChar]
  else path

/-- `isInSearchPath` (OSUtils.cpp:74-77): the executable resolves through
    the process search path to exactly this path. -/
def isInSearchPath (env : OSEnv) (filePath : String) : Bool :=
  env.findExecutable (getFileNameFromPath filePath) = filePath

/-- `getExecutableTraits` (OSUtils.cpp:89-114): paths under `/snap/` are
    Snap apps named by their file name; paths matching
    `^/var/lib/flatpak/app/([^/]+)/` are Flatpak apps named by the captured
    first component after the fixed prefix (the greedy `[^/]+` must be
    non-empty and be followed by another separator); anything else is
    unsandboxed. -/
def getExecutableTraits (executablePath : String) : ExecutableTraits :=
  let baseName := getFileBasenameFromPath executablePath
  if strStartsWith executablePath "/snap/" then
    ⟨baseName, Sandbox.Snap, getFileNameFromPath executablePath⟩
  else
    let rest := executablePath.data.drop ("/var/lib/flatpak/app/".data.length)
    let seg := rest.takeWhile (fun c => !(c = '/'))
    if strStartsWith executablePath "/var/lib/flatpak/app/"
         && !seg.isEmpty && decide (seg.length < rest.length) then
      ⟨baseName, Sandbox.Flatpak, String.mk seg⟩
    else
      ⟨baseName, Sandbox.None, ""⟩

/-- `fixExePath` (OSUtils.cpp:116-124): on Unix, prefix `./` when the path
    has no directory component. -/
def fixExePath (env : OSEnv) (exePath : String) : String :=
  if !env.isWindows && !strContainsChar exePath '/' then "./" ++ exePath
  else exePath

/-- `getRunCommand` (OSUtils.cpp:126-183), regular (non-FLATPAK_BUILD)
    build: a Snap app is run as `snap run <app>`; a Flatpak app as
    `flatpak run --filesystem=<absolute dir>... <app>` with one possibly
    quoted filesystem flag per directory needing access, recorded also in
    `extraPermissions`; otherwise the executable is referenced by bare name
    when it is in the search path, else by its rebased, `./`-fixed and
    possibly quoted path.  The first collected token becomes the
    executable, the rest become the arguments (lines 180-181). -/
def getRunCommand (env : OSEnv) (executablePath : String) (base : PathContext)
    (dirsToBeAccessed : List String) : ShellCommand :=
  match (getExecutableTraits executablePath).sandboxEnv with
  | Sandbox.Snap =>
      ⟨"snap", ["run", (getExecutableTraits executablePath).sandboxAppName], []⟩
  | Sandbox.Flatpak =>
      ⟨"flatpak",
       "run" :: (dirsToBeAccessed.map
                   (fun dir => maybeQuoted base ("--filesystem=" ++ getAbsolutePath env dir))
                 ++ [(getExecutableTraits executablePath).sandboxAppName]),
       dirsToBeAccessed.map (fun dir => "--filesystem=" ++ getAbsolutePath env dir)⟩
  | Sandbox.None =>
      if isInSearchPath env executablePath then
        ⟨getFileNameFromPath executablePath, [], []⟩
      else
        ⟨maybeQuoted base (fixExePath env (rebasePath base executablePath)), [], []⟩

/-- Concrete OS facilities used to instantiate theorems on closed inputs:
    a Unix platform whose search path resolves only the name `doomish`. -/
def exampleEnv : OSEnv :=
  ⟨false, "/home/user", fun name => if name = "doomish" then "/usr/bin/doomish" else ""⟩

/-- Concrete path settings used to instantiate theorems on closed inputs. -/
def exampleBase : PathContext := ⟨"/opt/doom", true⟩

/-! ## Theorems -/

/-- A string built from a non-empty character list is not the empty string. -/
theorem strMk_ne_empty (l : List Char) (h : l ≠ []) : String.mk l ≠ "" :=
  fun hc => h (congrArg String.data hc)

/-- Every argument emitted inside the scanning loop with `wasQuoted = false`
    has non-empty text: the unquoted flushes at a quote opening and at a
    separator space are guarded by a non-emptiness check, and the tokens
    emitted at a closing quote are flagged quoted. -/
theorem splitArgsLoop_unquoted_nonempty :
    ∀ (input currentArg : List Char) (escaped inQuotes : Bool) (a : Argument),
      a ∈ (splitArgsLoop input currentArg escaped inQuotes).1 →
      a.wasQuoted = false → a.text ≠ "" := by
  intro input
  induction input with
  | nil =>
    intro cur esc inQ a ha
    simp [splitArgsLoop] at ha
  | cons c rest ih =>
    intro cur esc inQ a ha hq
    cases esc with
    | true =>
      exact ih _ _ _ a (by simpa [splitArgsLoop] using ha) hq
    | false =>
      cases inQ with
      | true =>
        by_cases hb : c = backslashChar
        · exact ih _ _ _ a (by simpa [splitArgsLoop, hb] using ha) hq
        · by_cases hqc : c = quoteChar
          · simp only [splitArgsLoop, if_neg hb, if_pos hqc, List.mem_cons] at ha
            rcases ha with rfl | ha
            · simp at hq
            · exact ih _ _ _ a ha hq
          · exact ih _ _ _ a (by simpa [splitArgsLoop, hb, hqc] using ha) hq
      | false =>
        by_cases hb : c = backslashChar
        · exact ih _ _ _ a (by simpa [splitArgsLoop, hb] using ha) hq
        · by_cases hqc : c = quoteChar
          · simp only [splitArgsLoop, if_neg hb, if_pos hqc] at ha
            rcases hcur : cur.isEmpty with _ | _
            · simp only [hcur, Bool.false_eq_true, if_false, List.mem_cons] at ha
              rcases ha with rfl | ha
              · exact strMk_ne_empty cur (by simpa using hcur)
              · exact ih _ _ _ a ha hq
            · simp only [hcur, if_true] at ha
              exact ih _ _ _ a ha hq
          · by_cases hsp : c = ' '
            · simp only [splitArgsLoop, if_neg hb, if_neg hqc, if_pos hsp] at ha
              rcases hcur : cur.isEmpty with _ | _
              · simp only [hcur, Bool.false_eq_true, if_false, List.mem_cons] at ha
                rcases ha with rfl | ha
                · exact strMk_ne_empty cur (by simpa using hcur)
                · exact ih _ _ _ a ha hq
              · simp only [hcur, if_true] at ha
                exact ih _ _ _ a ha hq
            · exact ih _ _ _ a (by simpa [splitArgsLoop, hb, hqc, hsp] using ha) hq

/-- Claim C3 (counterexample): on the spec's own example input
    `foo "bar baz" qux\"x` the third token is not `quxx` — the backslash
    escapes the quote also outside quote mode, so the quote character is
    kept. -/
theorem splitCommandLineArguments_thirdToken_not_quxx :
    ((splitCommandLineArguments "foo \"bar baz\" qux\\\"x").map Argument.text).get? 2 ≠
      some "quxx" := by decide

/-- Claim C3 (amended): the tokenizer splits on unescaped spaces outside
    quotes, does not split inside double quotes, a quote toggles quote mode
    and starts/ends a token, and an escaped quote yields a literal quote
    character; on input `foo "bar baz" qux\"x` this produces `foo`
    (unquoted), `bar baz` (quoted) and `qux"x` (unquoted, the escaped quote
    kept literally). -/
theorem splitCommandLineArguments_example_tokens :
    splitCommandLineArguments "foo \"bar baz\" qux\\\"x" =
      [⟨"foo", false⟩, ⟨"bar baz", true⟩, ⟨"qux\"x", false⟩] := by decide

/-- Claim C8 (counterexample): the input consisting of one empty quoted
    group emits an empty token — a closing quote appends the pending
    argument unconditionally (MiscUtils.cpp:202). -/
theorem splitCommandLineArguments_empty_quoted_token :
    ¬ (∀ a ∈ splitCommandLineArguments "\"\"", a.text ≠ "") := by decide

/-- Claim C8 (amended): the tokenizer never emits an empty *unquoted*
    token; only an explicitly quoted empty group can produce an empty
    token. -/
theorem splitCommandLineArguments_unquoted_tokens_nonempty (s : String) :
    ∀ a ∈ splitCommandLineArguments s, a.wasQuoted = false → a.text ≠ "" := by
  intro a ha hq
  unfold splitCommandLineArguments at ha
  rw [List.mem_append] at ha
  rcases ha with ha | ha
  · exact splitArgsLoop_unquoted_nonempty s.data [] false false a ha hq
  · rcases hcur : (splitArgsLoop s.data [] false false).2.1.isEmpty with _ | _
    · simp only [hcur, Bool.false_eq_true, if_false, List.mem_singleton] at ha
      subst ha
      exact strMk_ne_empty _ (by simpa using hcur)
    · simp [hcur] at ha

/-- Witness for the amended claim C8 at a concrete input. -/
theorem splitCommandLineArguments_unquoted_tokens_nonempty_witness :
    (Argument.mk "x" false).text ≠ "" :=
  splitCommandLineArguments_unquoted_tokens_nonempty "x" ⟨"x", false⟩ (by decide) rfl

/-- Claim C9 (counterexample): the input `"a\"` ends with quote mode still
    open, yet its final token is flagged unquoted, because the epilogue
    (MiscUtils.cpp:231) clears the flag whenever the last input character
    is a double quote — here an escaped one. -/
theorem splitCommandLineArguments_escaped_quote_at_end :
    endsInQuotes "\"a\\\"" = true ∧
    (splitCommandLineArguments "\"a\\\"").map Argument.wasQuoted = [false] := by decide

/-- Claim C9 (amended): when the scan of the input ends with quote mode
    still open, a token is pending, and the input's last character is not a
    double quote (i.e. the unterminated quote was not closed by an escaped
    quote character), the pending token is flushed flagged as quoted. -/
theorem splitCommandLineArguments_unterminated_quote_flag (s : String)
    (h1 : (splitArgsLoop s.data [] false false).2.2 = true)
    (h2 : (splitArgsLoop s.data [] false false).2.1.isEmpty = false)
    (h3 : s.data.getLastD ' ' ≠ quoteChar) :
    splitCommandLineArguments s =
      (splitArgsLoop s.data [] false false).1 ++
        [⟨String.mk (splitArgsLoop s.data [] false false).2.1, true⟩] := by
  unfold splitCommandLineArguments
  have h3' : ¬ s.data.getLast?.getD ' ' = quoteChar := by
    simpa [List.getLastD_eq_getLast?] using h3
  simp [h1, h2, h3']

/-- Witness for the amended claim C9 at a concrete input. -/
theorem splitCommandLineArguments_unterminated_quote_flag_witness :
    splitCommandLineArguments "\"abc" = [⟨"abc", true⟩] :=
  (splitCommandLineArguments_unterminated_quote_flag "\"abc" (by decide) (by decide)
    (by decide)).trans (by decide)

/-- Claim C10: a backslash encountered outside quotes (and not itself
    escaped) escapes the next character, which is appended literally to the
    current token; hence `a\ b` is the single token `a b`, and `\"` outside
    quotes yields a literal quote without entering quote mode (`x\"y` stays
    one unquoted token). -/
theorem splitCommandLineArguments_backslash_outside_quotes :
    (∀ (c : Char) (rest currentArg : List Char),
        splitArgsLoop (backslashChar :: c :: rest) currentArg false false =
          splitArgsLoop rest (currentArg ++ [c]) false false) ∧
    splitCommandLineArguments "a\\ b" = [⟨"a b", false⟩] ∧
    splitCommandLineArguments "x\\\"y" = [⟨"x\"y", false⟩] := by
  refine ⟨fun c rest currentArg => ?_, by decide, by decide⟩
  simp [splitArgsLoop]

/-- If `findSuch` locates an ID at index `i`, the item at `i` carries that
    ID. -/
theorem findSuch_getD :
    ∀ (l : List String) (itemID : String) (i : Nat),
      findSuch l itemID = some i → l.getD i "" = itemID := by
  intro l
  induction l with
  | nil => intro itemID i h; simp [findSuch] at h
  | cons a rest ih =>
    intro itemID i h
    by_cases ha : a = itemID
    · simp only [findSuch, if_pos ha, Option.some.injEq] at h
      subst h
      simpa using ha
    · simp only [findSuch, if_neg ha, Option.map_eq_some'] at h
      obtain ⟨j, hj, rfl⟩ := h
      simpa using ih itemID j hj

/-- `findSuch` fails exactly on absent IDs: an ID not among the items is
    not found. -/
theorem findSuch_eq_none_of_not_mem :
    ∀ (l : List String) (itemID : String), itemID ∉ l → findSuch l itemID = none := by
  intro l
  induction l with
  | nil => intro itemID _; rfl
  | cons a rest ih =>
    intro itemID h
    have ha : ¬ a = itemID := fun hc => h (hc ▸ List.mem_cons_self a rest)
    simp only [findSuch, if_neg ha]
    rw [ih itemID (fun hc => h (List.mem_cons_of_mem a hc))]
    rfl

/-- An ID present among the items is found at some index. -/
theorem findSuch_of_mem :
    ∀ (l : List String) (itemID : String), itemID ∈ l →
      ∃ i, findSuch l itemID = some i := by
  intro l
  induction l with
  | nil => intro itemID h; simp at h
  | cons a rest ih =>
    intro itemID h
    by_cases ha : a = itemID
    · exact ⟨0, by simp [findSuch, ha]⟩
    · obtain ⟨i, hi⟩ := ih itemID (by rcases List.mem_cons.mp h with h | h
                                      · exact absurd h.symm ha
                                      · exact h)
      exact ⟨i + 1, by simp [findSuch, ha, hi]⟩

/-- Re-selecting the IDs of a restored selection restores the same
    selection: each restored index is the first occurrence of its own ID. -/
theorem selectItemsByIDs_roundtrip (scan : List String) :
    ∀ (ids : List String),
      selectItemsByIDs scan ((selectItemsByIDs scan ids).map (fun i => scan.getD i "")) =
        selectItemsByIDs scan ids := by
  intro ids
  induction ids with
  | nil => rfl
  | cons itemID rest ih =>
    cases h : findSuch scan itemID with
    | none =>
      simpa [selectItemsByIDs, List.filterMap_cons, h] using ih
    | some j =>
      have hg : scan.getD j "" = itemID := findSuch_getD scan itemID j h
      simp only [selectItemsByIDs, List.filterMap_cons, h, List.map_cons, hg]
      simpa [selectItemsByIDs, h] using ih

/-- Restoring the ID of an already restored current item reproduces the
    same current item. -/
theorem setCurrentItemByID_roundtrip (scan : List String) (sel : List Nat) (cid : String) :
    setCurrentItemByID scan (getCurrentItemID scan ⟨setCurrentItemByID scan cid, sel⟩) =
      setCurrentItemByID scan cid := by
  rcases hx : setCurrentItemByID scan cid with _ | i
  · show setCurrentItemByID scan (getCurrentItemID scan ⟨none, sel⟩) = none
    simp [getCurrentItemID, setCurrentItemByID]
  · have hcf : ¬ cid = "" ∧ findSuch scan cid = some i := by
      by_cases hc : cid = ""
      · simp [setCurrentItemByID, hc] at hx
      · exact ⟨hc, by simpa [setCurrentItemByID, hc] using hx⟩
    obtain ⟨hc, hf⟩ := hcf
    have hg : scan.getD i "" = cid := findSuch_getD scan cid i hf
    show setCurrentItemByID scan (scan.getD i "") = some i
    rw [hg]
    simp [setCurrentItemByID, hc, hf]

/-- Claim C5: reloading a list from a directory twice in a row with the
    directory contents unchanged is idempotent — after the second
    `updateListFromDir` the item list, the restored selection and the
    restored current item all equal their values after the first reload. -/
theorem updateListFromDir_idempotent (scan items : List String) (vs : ViewState) :
    updateListFromDir scan (updateListFromDir scan items vs).1 (updateListFromDir scan items vs).2 =
      updateListFromDir scan items vs := by
  unfold updateListFromDir
  apply congrArg (Prod.mk scan)
  congr 1
  · exact setCurrentItemByID_roundtrip scan _ (getCurrentItemID items vs)
  · exact selectItemsByIDs_roundtrip scan (getSelectedItemIDs items vs)

/-- Claim C6: when the previously-current item's identity is no longer
    among the re-scanned entries, the current item ends up unset (no
    fallback to the first item), and every still-present selected identity
    is restored to an index that carries it. -/
theorem updateListFromDir_stale_current (scan items : List String) (vs : ViewState)
    (h : getCurrentItemID items vs ∉ scan) :
    (updateListFromDir scan items vs).2.current = none ∧
    (updateListFromDir scan items vs).2.selected =
      selectItemsByIDs scan (getSelectedItemIDs items vs) ∧
    ∀ itemID ∈ getSelectedItemIDs items vs, itemID ∈ scan →
      ∃ j ∈ (updateListFromDir scan items vs).2.selected, scan.getD j "" = itemID := by
  refine ⟨?_, rfl, ?_⟩
  · by_cases hc : getCurrentItemID items vs = ""
    · simp [updateListFromDir, setCurrentItemByID, hc]
    · simp [updateListFromDir, setCurrentItemByID, hc,
            findSuch_eq_none_of_not_mem scan _ h]
  · intro itemID hsel hmem
    obtain ⟨j, hj⟩ := findSuch_of_mem scan itemID hmem
    refine ⟨j, ?_, findSuch_getD scan itemID j hj⟩
    simp only [updateListFromDir, selectItemsByIDs, List.mem_filterMap]
    exact ⟨itemID, hsel, hj⟩

/-- Witness for claim C6 at a concrete input: the current item `a` is gone
    after the rescan, so the current item becomes unset. -/
theorem updateListFromDir_stale_current_witness :
    (updateListFromDir ["b"] ["a", "b"] ⟨some 0, [1]⟩).2.current = none :=
  (updateListFromDir_stale_current ["b"] ["a", "b"] ⟨some 0, [1]⟩ (by decide)).1

/-- Unfolding equation for `swapAdj` on a cons cell and a positive
    position. -/
theorem swapAdj_cons_succ {α : Type} (a : α) (t : List α) (j : Nat) :
    swapAdj (a :: t) (j + 1) = a :: swapAdj t j := by
  cases t <;> rfl

/-- Swapping the same adjacent pair twice restores the list. -/
theorem swapAdj_swapAdj {α : Type} :
    ∀ (l : List α) (i : Nat), swapAdj (swapAdj l i) i = l := by
  intro l
  induction l with
  | nil => intro i; cases i <;> rfl
  | cons a t ih =>
    intro i
    cases i with
    | zero => cases t with
      | nil => rfl
      | cons b t' => rfl
    | succ j =>
      rw [swapAdj_cons_succ, swapAdj_cons_succ, ih j]

/-- `swapAdj` preserves the length of the list. -/
theorem swapAdj_length {α : Type} :
    ∀ (l : List α) (i : Nat), (swapAdj l i).length = l.length := by
  intro l
  induction l with
  | nil => intro i; cases i <;> rfl
  | cons a t ih =>
    intro i
    cases i with
    | zero => cases t with
      | nil => rfl
      | cons b t' => rfl
    | succ j =>
      rw [swapAdj_cons_succ]
      simp [ih j]

/-- Moving the element at `i+1` one position up is the adjacent swap at
    `i`. -/
theorem listMove_up_eq_swapAdj {α : Type} [Inhabited α] :
    ∀ (l : List α) (i : Nat), i + 1 < l.length →
      listMove l (i + 1) i = swapAdj l i := by
  intro l
  induction l with
  | nil => intro i h; simp at h
  | cons a t ih =>
    intro i h
    cases i with
    | zero =>
      cases t with
      | nil => simp at h
      | cons b t' => simp [listMove, swapAdj, List.eraseIdx]
    | succ j =>
      have hj : j + 1 < t.length := by simpa using h
      have := ih j hj
      show listMove (a :: t) (j + 2) (j + 1) = swapAdj (a :: t) (j + 1)
      simp only [listMove, List.eraseIdx, List.getD_cons_succ, List.take_succ_cons,
                 List.drop_succ_cons] at this ⊢
      show a :: (((t.eraseIdx (j + 1)).take j) ++ [t.getD (j + 1) default]
             ++ ((t.eraseIdx (j + 1)).drop j)) = swapAdj (a :: t) (j + 1)
      rw [this, swapAdj_cons_succ]

/-- Moving the element at `i` one position down is the adjacent swap at
    `i`. -/
theorem listMove_down_eq_swapAdj {α : Type} [Inhabited α] :
    ∀ (l : List α) (i : Nat), i + 1 < l.length →
      listMove l i (i + 1) = swapAdj l i := by
  intro l
  induction l with
  | nil => intro i h; simp at h
  | cons a t ih =>
    intro i h
    cases i with
    | zero =>
      cases t with
      | nil => simp at h
      | cons b t' => simp [listMove, swapAdj, List.eraseIdx]
    | succ j =>
      have hj : j + 1 < t.length := by simpa using h
      have := ih j hj
      simp only [listMove, List.eraseIdx, List.getD_cons_succ, List.take_succ_cons,
                 List.drop_succ_cons] at this ⊢
      show a :: (((t.eraseIdx j).take (j + 1)) ++ [t.getD j default]
             ++ ((t.eraseIdx j).drop (j + 1))) = swapAdj (a :: t) (j + 1)
      rw [this, swapAdj_cons_succ]

/-- Claim C7 (counterexample): with the selected (and current) item at the
    top of a two-item list, `moveUpSelectedItem` is a no-op but
    `moveDownSelectedItem` still moves the item, so the round trip does not
    restore the original order. -/
theorem moveUp_moveDown_top_counterexample :
    moveDownSelectedItem (moveUpSelectedItem ⟨["A", "B"], some 0, some 0⟩) ≠
        ⟨["A", "B"], some 0, some 0⟩ ∧
      (moveDownSelectedItem (moveUpSelectedItem ⟨["A", "B"], some 0, some 0⟩)).items =
        ["B", "A"] := by decide

/-- Claim C7 (amended): for every list with a selected item and a current
    item, neither of which is the first item, `moveUpSelectedItem` followed
    by `moveDownSelectedItem` on the same originally-selected item restores
    the whole state: the original order, the original current item and the
    original selection. -/
theorem moveUp_moveDown_roundtrip (s : ListViewState) (k c : Nat)
    (hsel : s.selected = some k) (hcur : s.current = some c)
    (hk1 : 1 ≤ k) (hk2 : k < s.items.length)
    (hc1 : 1 ≤ c) (hc2 : c < s.items.length) :
    moveDownSelectedItem (moveUpSelectedItem s) = s := by
  obtain ⟨items, cur, sel⟩ := s
  simp only at hsel hcur hk2 hc2
  subst hsel hcur
  have hk0 : ¬ k = 0 := by omega
  have hup : moveUpSelectedItem ⟨items, some c, some k⟩ =
      ⟨swapAdj items (k - 1), some (c - 1), some (k - 1)⟩ := by
    simp only [moveUpSelectedItem, if_neg hk0]
    have hswap : listMove items k (k - 1) = swapAdj items (k - 1) := by
      have := listMove_up_eq_swapAdj items (k - 1) (by omega)
      rwa [Nat.sub_add_cancel hk1] at this
    rw [hswap]
  rw [hup]
  have hlen : (swapAdj items (k - 1)).length = items.length := swapAdj_length items (k - 1)
  have hkne : ¬ (k - 1 = (swapAdj items (k - 1)).length - 1) := by omega
  simp only [moveDownSelectedItem, hkne, if_false]
  have hdown : listMove (swapAdj items (k - 1)) (k - 1) (k - 1 + 1) =
      swapAdj (swapAdj items (k - 1)) (k - 1) :=
    listMove_down_eq_swapAdj _ (k - 1) (by omega)
  rw [hdown, swapAdj_swapAdj]
  have hcond : c - 1 < (swapAdj items (k - 1)).length - 1 := by omega
  simp only [hcond, if_true]
  have h1 : k - 1 + 1 = k := by omega
  have h2 : c - 1 + 1 = c := by omega
  rw [h1, h2]

/-- Witness for the amended claim C7 at a concrete input. -/
theorem moveUp_moveDown_roundtrip_witness :
    moveDownSelectedItem (moveUpSelectedItem ⟨["A", "B", "C"], some 1, some 1⟩) =
      ⟨["A", "B", "C"], some 1, some 1⟩ :=
  moveUp_moveDown_roundtrip ⟨["A", "B", "C"], some 1, some 1⟩ 1 1 rfl rfl
    (by decide) (by decide) (by decide) (by decide)

/-- `dropIdxP` only depends on the pointwise values of the position
    predicate. -/
theorem dropIdxP_congr {α : Type} :
    ∀ (l : List α) (p q : Nat → Bool), (∀ j, p j = q j) → dropIdxP l p = dropIdxP l q := by
  intro l
  induction l with
  | nil => intro p q _; rfl
  | cons a t ih =>
    intro p q h
    simp only [dropIdxP, h 0]
    rw [ih (fun j => p (j + 1)) (fun j => q (j + 1)) (fun j => h (j + 1))]

/-- Dropping no position keeps the list. -/
theorem dropIdxP_false {α : Type} :
    ∀ (l : List α), dropIdxP l (fun _ => false) = l := by
  intro l
  induction l with
  | nil => rfl
  | cons a t ih => simpa [dropIdxP] using ih

/-- Erasing a dropped position first and then dropping the re-indexed
    remaining positions drops the same elements. -/
theorem dropIdxP_eraseIdx {α : Type} :
    ∀ (l : List α) (m : Nat) (p : Nat → Bool), m < l.length → p m = true →
      dropIdxP l p =
        dropIdxP (l.eraseIdx m) (fun j => if j < m then p j else p (j + 1)) := by
  intro l
  induction l with
  | nil => intro m p hm _; simp at hm
  | cons a t ih =>
    intro m p hm hp
    cases m with
    | zero =>
      simp only [dropIdxP, hp, if_true, List.nil_append, List.eraseIdx_cons_zero]
      exact dropIdxP_congr t _ _ (fun j => by simp)
    | succ m' =>
      have hm' : m' < t.length := by simpa using hm
      have hstep := ih m' (fun j => p (j + 1)) hm' hp
      simp only [dropIdxP, List.eraseIdx_cons_succ]
      rw [hstep]
      congr 1
      · have h0 : 0 < m' + 1 := Nat.succ_pos m'
        simp [h0]
      · exact dropIdxP_congr _ _ _ (fun j => by
          by_cases hj : j < m'
          · simp [hj, Nat.succ_lt_succ hj]
          · simp [hj, fun h => hj (Nat.lt_of_succ_lt_succ h)])

/-- The deletion loop with running offset correction removes exactly the
    elements at the listed original positions, provided the positions are
    strictly ascending and in range when counted from the offset. -/
theorem deleteLoop_eq_dropIdxP {α : Type} :
    ∀ (idxs : List Nat) (l : List α) (d : Nat),
      List.Pairwise (· < ·) idxs →
      (∀ e ∈ idxs, d ≤ e) →
      (∀ e ∈ idxs, e - d < l.length) →
      deleteLoop l idxs d = dropIdxP l (fun j => decide ((j + d) ∈ idxs)) := by
  intro idxs
  induction idxs with
  | nil =>
    intro l d _ _ _
    calc deleteLoop l [] d = l := rfl
      _ = dropIdxP l (fun _ => false) := (dropIdxP_false l).symm
      _ = dropIdxP l (fun j => decide ((j + d) ∈ ([] : List Nat))) :=
          dropIdxP_congr l _ _ (fun j => by simp)
  | cons i rest ih =>
    intro l d hpair hd hb
    have hdi : d ≤ i := hd i (List.mem_cons_self i rest)
    have hil : i - d < l.length := hb i (List.mem_cons_self i rest)
    have hrest_lt : ∀ e ∈ rest, i < e := fun e he => List.rel_of_pairwise_cons hpair he
    have hd' : ∀ e ∈ rest, d + 1 ≤ e := fun e he => by
      have := hrest_lt e he; omega
    have hlen : (l.eraseIdx (i - d)).length + 1 = l.length := List.length_eraseIdx_add_one hil
    have hb' : ∀ e ∈ rest, e - (d + 1) < (l.eraseIdx (i - d)).length := fun e he => by
      have h1 := hb e (List.mem_cons_of_mem i he)
      have h2 := hrest_lt e he
      omega
    have step : deleteLoop l (i :: rest) d = deleteLoop (l.eraseIdx (i - d)) rest (d + 1) := rfl
    rw [step, ih (l.eraseIdx (i - d)) (d + 1) hpair.of_cons hd' hb']
    have hpm : (fun j => decide ((j + d) ∈ i :: rest)) (i - d) = true := by
      simp [Nat.sub_add_cancel hdi]
    rw [dropIdxP_eraseIdx l (i - d) _ hil hpm]
    apply dropIdxP_congr
    intro j
    by_cases hj : j < i - d
    · have h1 : j + d < i := by omega
      have hmem1 : ¬ (j + d ∈ i :: rest) := by
        intro hmem
        rcases List.mem_cons.mp hmem with h | h
        · omega
        · exact absurd (hrest_lt _ h) (by omega)
      have hmem2 : ¬ (j + (d + 1) ∈ rest) := fun h => absurd (hrest_lt _ h) (by omega)
      simp [hj, hmem1, hmem2]
    · have hge : i ≤ j + d := by omega
      have hiff : ((j + 1) + d ∈ i :: rest) ↔ (j + (d + 1) ∈ rest) := by
        rw [List.mem_cons]
        constructor
        · rintro (h | h)
          · exact ((by omega : False)).elim
          · have he : j + 1 + d = j + (d + 1) := by omega
            rwa [he] at h
        · intro h
          right
          have he : j + (d + 1) = j + 1 + d := by omega
          rwa [he] at h
      simp [hj, hiff]

/-- The deletion loop shortens the list by the number of deleted
    positions. -/
theorem deleteLoop_length {α : Type} :
    ∀ (idxs : List Nat) (l : List α) (d : Nat),
      List.Pairwise (· < ·) idxs →
      (∀ e ∈ idxs, d ≤ e) →
      (∀ e ∈ idxs, e - d < l.length) →
      (deleteLoop l idxs d).length = l.length - idxs.length := by
  intro idxs
  induction idxs with
  | nil => intro l d _ _ _; simp [deleteLoop]
  | cons i rest ih =>
    intro l d hpair hd hb
    have hdi : d ≤ i := hd i (List.mem_cons_self i rest)
    have hil : i - d < l.length := hb i (List.mem_cons_self i rest)
    have hrest_lt : ∀ e ∈ rest, i < e := fun e he => List.rel_of_pairwise_cons hpair he
    have hd' : ∀ e ∈ rest, d + 1 ≤ e := fun e he => by
      have := hrest_lt e he; omega
    have hlen : (l.eraseIdx (i - d)).length + 1 = l.length := List.length_eraseIdx_add_one hil
    have hb' : ∀ e ∈ rest, e - (d + 1) < (l.eraseIdx (i - d)).length := fun e he => by
      have h1 := hb e (List.mem_cons_of_mem i he)
      have h2 := hrest_lt e he
      omega
    have step : deleteLoop l (i :: rest) d = deleteLoop (l.eraseIdx (i - d)) rest (d + 1) := rfl
    rw [step, ih (l.eraseIdx (i - d)) (d + 1) hpair.of_cons hd' hb']
    simp only [List.length_cons]
    omega

/-- A strictly ascending list of positions all below `n` starts at most
    `n` minus its length. -/
theorem pairwise_head_bound :
    ∀ (rest : List Nat) (i n : Nat),
      List.Pairwise (· < ·) (i :: rest) → (∀ e ∈ i :: rest, e < n) →
      i + rest.length < n := by
  intro rest
  induction rest with
  | nil => intro i n _ hb; simpa using hb i (List.mem_cons_self i [])
  | cons j rest' ih =>
    intro i n hp hb
    have hij : i < j := List.rel_of_pairwise_cons hp (List.mem_cons_self j rest')
    have h2 := ih j n hp.of_cons (fun e he => hb e (List.mem_cons_of_mem i he))
    simp only [List.length_cons]
    omega

/-- Claim C4: with a non-empty selection of distinct in-range indices,
    `deleteSelectedItems` sorts them ascending and removes exactly the
    items at those positions (the running offset correction makes the
    ascending deletions target the intended original positions), and then
    selects the item at the position of the first-deleted index when that
    position is still within the shrunk list, otherwise the new last item
    (when the list did not become empty). -/
theorem deleteSelectedItems_spec {α : Type} (items : List α) (sel : List Nat)
    (cur : Option Nat) (hne : sel ≠ []) (hvalid : ∀ i ∈ sel, i < items.length)
    (hnodup : sel.Nodup) :
    (deleteSelectedItems items sel cur).1 = dropIdxP items (fun j => decide (j ∈ sel)) ∧
    (firstDeletedIdx sel < (deleteSelectedItems items sel cur).1.length →
      (deleteSelectedItems items sel cur).2 = some (firstDeletedIdx sel)) ∧
    (¬ firstDeletedIdx sel < (deleteSelectedItems items sel cur).1.length →
      (deleteSelectedItems items sel cur).1 ≠ [] →
      (deleteSelectedItems items sel cur).2 =
        some ((deleteSelectedItems items sel cur).1.length - 1)) := by
  have hempty : sel.isEmpty = false := by
    cases sel with
    | nil => exact absurd rfl hne
    | cons a t => rfl
  have hnotempty : ¬ (sel.isEmpty = true) := by simp [hempty]
  set asc := List.insertionSort (· ≤ ·) sel with hasc
  have hperm : asc.Perm sel := List.perm_insertionSort _ _
  have hsorted : List.Sorted (· ≤ ·) asc := List.sorted_insertionSort _ _
  have hnodupAsc : asc.Nodup := hperm.nodup_iff.mpr hnodup
  have hchain : List.Pairwise (· < ·) asc := hsorted.lt_of_le hnodupAsc
  have hboundAsc : ∀ e ∈ asc, e < items.length := fun e he => hvalid e (hperm.mem_iff.mp he)
  have hfirst_def : deleteSelectedItems items sel cur =
      (deleteLoop items asc 0,
       if firstDeletedIdx sel < (deleteLoop items asc 0).length then
         some (firstDeletedIdx sel)
       else if (deleteLoop items asc 0).isEmpty then none
       else some (firstDeletedIdx sel - 1)) := by
    unfold deleteSelectedItems
    rw [if_neg hnotempty]
  have hdel : deleteLoop items asc 0 = dropIdxP items (fun j => decide (j ∈ sel)) := by
    rw [deleteLoop_eq_dropIdxP asc items 0 hchain (fun e _ => Nat.zero_le e)
        (fun e he => by simpa using hboundAsc e he)]
    exact dropIdxP_congr _ _ _ (fun j => by simp [hperm.mem_iff])
  refine ⟨by rw [hfirst_def]; exact hdel, ?_, ?_⟩
  · intro h
    rw [hfirst_def] at h ⊢
    simp only at h
    simp [h]
  · intro h hne'
    rw [hfirst_def] at h hne' ⊢
    simp only at h hne' ⊢
    have hlen' : (deleteLoop items asc 0).length = items.length - asc.length :=
      deleteLoop_length asc items 0 hchain (fun e _ => Nat.zero_le e)
        (fun e he => by simpa using hboundAsc e he)
    obtain ⟨f, tail, hft⟩ : ∃ f tail, asc = f :: tail := by
      cases hasc' : asc with
      | nil =>
        have hlen0 := hperm.length_eq
        rw [hasc'] at hlen0
        exact absurd (List.length_eq_zero.mp hlen0.symm) hne
      | cons f tail => exact ⟨f, tail, rfl⟩
    have hfirst_eq : firstDeletedIdx sel = f := by
      rw [firstDeletedIdx, ← hasc, hft]
      rfl
    have hhead : f + tail.length < items.length :=
      pairwise_head_bound tail f items.length (hft ▸ hchain) (hft ▸ hboundAsc)
    have hascLen : asc.length = tail.length + 1 := by rw [hft]; rfl
    rw [hfirst_eq] at h ⊢
    have hflen : f = (deleteLoop items asc 0).length := by
      rw [hlen'] at h ⊢
      omega
    have hie : (deleteLoop items asc 0).isEmpty = false := by
      cases hc : deleteLoop items asc 0 with
      | nil => exact absurd hc hne'
      | cons x xs => rfl
    simp [h, hie, hflen]

/-- Witness for claim C4 at the spec's concrete instance: deleting the
    indices {1,3} (clicked in the order 3,1) from [A,B,C,D,E] yields
    [A,C,E] with the item at index 1 selected, and that index is the
    first-deleted index. -/
theorem deleteSelectedItems_spec_witness :
    deleteSelectedItems ["A", "B", "C", "D", "E"] [3, 1] (some 3) = (["A", "C", "E"], some 1) ∧
    (deleteSelectedItems ["A", "B", "C", "D", "E"] [3, 1] (some 3)).2 =
      some (firstDeletedIdx [3, 1]) := by
  have h := deleteSelectedItems_spec ["A", "B", "C", "D", "E"] [3, 1] (some 3)
    (by decide) (by decide) (by decide)
  exact ⟨by decide, h.2.1 (by decide)⟩

/-- Claim C1: `getRunCommand` resolves the execution prefix from the
    detected sandbox environment — no sandbox prefix tokens for `None`
    (the command is a single executable token with no arguments and no
    extra permissions), `snap run <app>` for Snap, and
    `flatpak run --filesystem=<absolute dir>... <app>` for Flatpak with
    exactly one filesystem flag per directory in list order, all before
    the application identifier token. -/
theorem getRunCommand_sandbox_prefixing (env : OSEnv) (p : String) (base : PathContext)
    (dirs : List String) :
    ((getExecutableTraits p).sandboxEnv = Sandbox.None →
      (getRunCommand env p base dirs).arguments = [] ∧
      (getRunCommand env p base dirs).extraPermissions = []) ∧
    ((getExecutableTraits p).sandboxEnv = Sandbox.Snap →
      getRunCommand env p base dirs =
        ⟨"snap", ["run", (getExecutableTraits p).sandboxAppName], []⟩) ∧
    ((getExecutableTraits p).sandboxEnv = Sandbox.Flatpak →
      getRunCommand env p base dirs =
        ⟨"flatpak",
         "run" :: (dirs.map (fun dir => maybeQuoted base ("--filesystem=" ++ getAbsolutePath env dir))
                   ++ [(getExecutableTraits p).sandboxAppName]),
         dirs.map (fun dir => "--filesystem=" ++ getAbsolutePath env dir)⟩) := by
  refine ⟨fun h => ?_, fun h => ?_, fun h => ?_⟩
  · unfold getRunCommand
    rw [h]
    by_cases hs : isInSearchPath env p = true
    · simp [hs]
    · simp [hs]
  · unfold getRunCommand
    rw [h]
  · unfold getRunCommand
    rw [h]

/-- Witness for claim C1 at a concrete Flatpak path with the directories
    ["/a", "/b"]: the command is `flatpak run --filesystem=/a
    --filesystem=/b org.example.App`, with exactly two filesystem flags,
    both before the application identifier. -/
theorem getRunCommand_sandbox_prefixing_witness :
    getRunCommand exampleEnv "/var/lib/flatpak/app/org.example.App/current/active/files/bin/app"
        exampleBase ["/a", "/b"] =
      ⟨"flatpak", ["run", "--filesystem=/a", "--filesystem=/b", "org.example.App"],
       ["--filesystem=/a", "--filesystem=/b"]⟩ ∧
    ((getRunCommand exampleEnv
        "/var/lib/flatpak/app/org.example.App/current/active/files/bin/app"
        exampleBase ["/a", "/b"]).arguments.filter
          (fun t => strStartsWith t "--filesystem=")).length = 2 := by
  have h := (getRunCommand_sandbox_prefixing exampleEnv
    "/var/lib/flatpak/app/org.example.App/current/active/files/bin/app"
    exampleBase ["/a", "/b"]).2.2 (by decide)
  exact ⟨h.trans (by decide), by decide⟩

/-- Claim C2: for a non-sandboxed executable path, `getRunCommand`
    references the executable by bare file name when it resolves through
    the process search path to exactly that path; otherwise by its path
    rebased per the absolute-paths toggle, prefixed with `./` on
    non-Windows when it has no directory component, and quoted when it
    contains spaces.  In both cases the command is the single executable
    token. -/
theorem getRunCommand_exe_reference (env : OSEnv) (p : String) (base : PathContext)
    (dirs : List String) (hsb : (getExecutableTraits p).sandboxEnv = Sandbox.None) :
    (isInSearchPath env p = true →
      getRunCommand env p base dirs = ⟨getFileNameFromPath p, [], []⟩) ∧
    (isInSearchPath env p = false →
      getRunCommand env p base dirs =
        ⟨maybeQuoted base (fixExePath env (rebasePath base p)), [], []⟩) ∧
    (env.isWindows = false → strContainsChar (rebasePath base p) '/' = false →
      fixExePath env (rebasePath base p) = "./" ++ rebasePath base p) ∧
    (∀ q : String, strContainsChar q ' ' = true →
      maybeQuoted base q = String.mk [quoteChar] ++ q ++ String.mk [quoteChar]) := by
  refine ⟨fun h => ?_, fun h => ?_, fun hw hnc => ?_, fun q hq => ?_⟩
  · unfold getRunCommand
    rw [hsb]
    simp [h]
  · unfold getRunCommand
    rw [hsb]
    simp [h]
  · unfold fixExePath
    rw [hw, hnc]
    rfl
  · unfold maybeQuoted
    rw [hq]
    rfl

/-- Witness for claim C2 at concrete inputs: `/usr/bin/doomish` resolves
    through the search path and is referenced by bare name, while the
    out-of-search-path `/opt/doom/gz doom` is rebased (absolute paths on)
    and quoted because of its space. -/
theorem getRunCommand_exe_reference_witness :
    getRunCommand exampleEnv "/usr/bin/doomish" exampleBase [] = ⟨"doomish", [], []⟩ ∧
    getRunCommand exampleEnv "/opt/doom/gz doom" exampleBase [] =
      ⟨String.mk [quoteChar] ++ "/opt/doom/gz doom" ++ String.mk [quoteChar], [], []⟩ := by
  have h1 := (getRunCommand_exe_reference exampleEnv "/usr/bin/doomish" exampleBase []
    (by decide)).1 (by decide)
  have h2 := (getRunCommand_exe_reference exampleEnv "/opt/doom/gz doom" exampleBase []
    (by decide)).2.1 (by decide)
  exact ⟨h1.trans (by decide), h2.trans (by decide)⟩

end DoomRunner
